import Mathlib

/-!
A shallow embedding in Lean 4 of `src/expense_tracker.py` (Personal Expense
Tracker), covering the persistence and aggregation core: the module-level
state (`expenses`, `expense_history`, `budgets`), the operations
`add_expense`, `calculate_total_expenses`, `find_highest_spending_category`,
`view_expense_history`, `save_data_to_file`, `load_data_from_file`,
`set_budget` and `remove_all_expenses`.

Modelling conventions:
* Python `float` amounts are modelled as exact rationals `ℚ`; the claims
  under study are about the additive structure of totals, not about IEEE
  rounding.
* Python dicts are insertion-ordered association lists `List (String × α)`;
  `d[k] = v` replaces the (unique, in Python) binding in place or appends a
  new one, `d.update(other)` performs that assignment for every pair of
  `other` in order.
* `datetime.now().strftime("%Y-%m-%d")` is an external input, passed to
  `add_expense` as the `today : String` parameter.  Dates stay strings and
  are compared lexicographically, exactly as the Python code compares them.
* A value that arrives from user input and is fed to Python `float(...)` is
  modelled as `Option ℚ`: `some q` is a string that parses as the number
  `q`, `none` a string on which `float` raises `ValueError`.
* The files written by `save_data_to_file` are modelled structurally (the
  csv and json layers round-trip faithfully): a record file is a list of
  rows of fields, the metadata file the pair of the two dicts.
-/

/-- A Python dict with `String` keys, as an insertion-ordered association
list.  Python guarantees each key occurs at most once; operations below
act on the first occurrence, which coincides with Python semantics on
duplicate-free lists. -/
abbrev Dict (α : Type) : Type := List (String × α)

namespace Dict

/-- Python `k in d`. -/
def contains (d : Dict α) (k : String) : Bool :=
  d.any fun p => p.1 == k

/-- Python `d.get(k, v₀)` / `d[k]` lookup: value of the first binding of
`k`, or the default `v₀` when `k` is absent. -/
def getD (d : Dict α) (k : String) (v₀ : α) : α :=
  match d with
  | [] => v₀
  | p :: rest => if p.1 == k then p.2 else getD rest k v₀

/-- Python `d[k] = v`: replace the binding of `k` in place when present,
append a new binding otherwise. -/
def set (d : Dict α) (k : String) (v : α) : Dict α :=
  match d with
  | [] => [(k, v)]
  | p :: rest => if p.1 == k then (k, v) :: rest else p :: set rest k v

/-- Python `d.update(other)`: assign every binding of `other` into `d`,
in `other`'s order. -/
def update (d other : Dict α) : Dict α :=
  other.foldl (fun acc p => acc.set p.1 p.2) d

/-- The keys of a dict, in order. -/
def keys (d : Dict α) : List String :=
  d.map Prod.fst

end Dict

/-- One element of `expense_history`: the tuple
`(date, category, amount, description)`. -/
structure Record where
  date : String
  category : String
  amount : ℚ
  description : String
deriving DecidableEq, Repr

/-- The module-level mutable state of `expense_tracker.py`:
`expenses` (category → running total), `expense_history` (ordered list of
records) and `budgets` (category → optional budget). -/
structure Ledger where
  expenses : Dict ℚ
  expense_history : List Record
  budgets : Dict (Option ℚ)
deriving DecidableEq, Repr

/-- `DEFAULT_CATEGORIES` from the source. -/
def DEFAULT_CATEGORIES : List String :=
  ["Food", "Transportation", "Entertainment", "Utilities", "Health",
   "Shopping", "Education", "Other"]

/-- The initial module state: every default category mapped to `0.0`,
empty history, every budget `None`. -/
def initLedger : Ledger :=
  { expenses := DEFAULT_CATEGORIES.map fun c => (c, (0 : ℚ))
    expense_history := []
    budgets := DEFAULT_CATEGORIES.map fun c => (c, (none : Option ℚ)) }

/-- The four possible outcomes of `add_expense`, one per `return`
statement: invalid category, amount `<= 0`, `float` raised `ValueError`,
and success. -/
inductive AddResult where
  | invalidCategory
  | amountNotPositive
  | amountNotNumber
  | ok
deriving DecidableEq, Repr

/-- `InvalidAmount` in the spec's error vocabulary groups the two amount
failures of `add_expense` (non-numeric and `<= 0`). -/
def AddResult.isInvalidAmount : AddResult → Bool
  | .amountNotPositive => true
  | .amountNotNumber => true
  | _ => false

/-- `add_expense(category, amount, description)` (source lines 29–46):
validates the category against the keys of `expenses`, then parses and
sign-checks the amount; on success appends
`(today, category, amount, description)` to the history and adds the
amount to the category's total.  Returns the outcome together with the
resulting state (unchanged on failure). -/
def add_expense (st : Ledger) (today : String) (category : String)
    (amount : Option ℚ) (description : String) : AddResult × Ledger :=
  if ¬ st.expenses.contains category then
    (.invalidCategory, st)
  else
    match amount with
    | none => (.amountNotNumber, st)
    | some a =>
      if a ≤ 0 then
        (.amountNotPositive, st)
      else
        (.ok,
          { st with
            expense_history :=
              st.expense_history ++ [⟨today, category, a, description⟩]
            expenses :=
              st.expenses.set category (st.expenses.getD category 0 + a) })

/-- `calculate_total_expenses` (source lines 62–68):
`sum(expenses.values())`. -/
def calculate_total_expenses (st : Ledger) : ℚ :=
  (st.expenses.map Prod.snd).sum

/-- Python `max` over a list of values; the source only applies it to
`expenses.values()`, which is never empty (the dict starts with the eight
default categories and keys are never removed), so the `[]` case is
unreachable there and is given the junk value `0`. -/
def pymax : List ℚ → ℚ
  | [] => 0
  | x :: xs => xs.foldl max x

/-- `find_highest_spending_category` (source lines 70–82): computes the
maximum total; when it is `0` prints "No expenses to analyze" and returns
`(None, 0.0)`, otherwise returns the list of categories whose total equals
the maximum, with the maximum. -/
def find_highest_spending_category (st : Ledger) :
    Option (List String) × ℚ :=
  let maxAmount := pymax (st.expenses.map Prod.snd)
  if maxAmount = 0 then
    (none, 0)
  else
    ((st.expenses.filter fun p => p.2 == maxAmount).map Prod.fst, maxAmount)

/-- Python truthiness of an optional-string argument defaulting to `None`:
`None` and the empty string are falsy. -/
def truthy : Option String → Bool
  | none => false
  | some s => s != ""

/-- The three `continue` tests of `view_expense_history`, combined: a
record is kept when no supplied (truthy) filter rejects it. -/
def keepRecord (filter_category start_date end_date : Option String)
    (r : Record) : Bool :=
  if truthy filter_category && r.category != filter_category.getD "" then
    false
  else if truthy start_date && decide (r.date < start_date.getD "") then
    false
  else if truthy end_date && decide (end_date.getD "" < r.date) then
    false
  else
    true

/-- `view_expense_history(filter_category, start_date, end_date)` (source
lines 84–102): the list `filtered` it builds — the history records that
pass every supplied filter, in history order. -/
def view_expense_history (st : Ledger)
    (filter_category start_date end_date : Option String) : List Record :=
  st.expense_history.filter (keepRecord filter_category start_date end_date)

/-- `set_budget` outcomes, one per branch of the source. -/
inductive BudgetResult where
  | invalidCategory
  | amountNotPositive
  | amountNotNumber
  | ok
deriving DecidableEq, Repr

/-- `set_budget(category, amount)` (source lines 157–170): validates the
category against the keys of `budgets`, then parses and sign-checks the
amount; on success stores the amount as the category's budget. -/
def set_budget (st : Ledger) (category : String) (amount : Option ℚ) :
    BudgetResult × Ledger :=
  if ¬ st.budgets.contains category then
    (.invalidCategory, st)
  else
    match amount with
    | none => (.amountNotNumber, st)
    | some a =>
      if a ≤ 0 then
        (.amountNotPositive, st)
      else
        (.ok, { st with budgets := st.budgets.set category (some a) })

/-- `remove_all_expenses` (source lines 233–239): sets every category's
total to `0.0` and clears the history; `budgets` is not touched. -/
def remove_all_expenses (st : Ledger) : Ledger :=
  { st with
    expenses := st.expenses.map fun p => (p.1, (0 : ℚ))
    expense_history := [] }

/-- One field of a row of the record file, as the loader sees it after
`csv.reader`: `str s` is a field whose text is `s`, `num q` a field whose
text Python `float(...)` parses as the value `q`.  The loader applies
`float` only to the third field of a four-field row; `save_data_to_file`
writes exactly that field as `num` (a Python float round-trips through its
string form) and all other fields as `str`.  Reading a `num` field back
as raw text is not exercised by any operation modelled here; it is
rendered with `toString`. -/
inductive Cell where
  | str (s : String)
  | num (q : ℚ)
deriving DecidableEq, Repr

/-- Python `float(...)` applied to a field's text: the parsed value, or
`none` when `ValueError` is raised. -/
def Cell.asFloat : Cell → Option ℚ
  | .str _ => none
  | .num q => some q

/-- A field's raw text, as the loader binds it to `rec_date`, `rec_cat`
or `rec_desc`. -/
def Cell.asText : Cell → String
  | .str s => s
  | .num q => toString q

/-- The metadata sidecar `<filename>.meta`: the json document
`{"expenses": ..., "budgets": ...}`. -/
structure Meta where
  expenses : Dict ℚ
  budgets : Dict (Option ℚ)
deriving DecidableEq, Repr

/-- The pair of artifacts `save_data_to_file` writes and
`load_data_from_file` reads: the csv record file as a list of rows
(header included) and the optional metadata file. -/
structure SavedData where
  rows : List (List Cell)
  meta : Option Meta
deriving DecidableEq, Repr

/-- The header row `["date", "category", "amount", "description"]`. -/
def headerRow : List Cell :=
  [.str "date", .str "category", .str "amount", .str "description"]

/-- The csv row `writer.writerow(rec)` produces for a history record. -/
def rowOfRecord (r : Record) : List Cell :=
  [.str r.date, .str r.category, .num r.amount, .str r.description]

/-- `save_data_to_file` (source lines 104–122): writes the header plus one
row per history record to the record file, and dumps
`{"expenses": expenses, "budgets": budgets}` to the metadata file. -/
def save_data_to_file (st : Ledger) : SavedData :=
  { rows := headerRow :: st.expense_history.map rowOfRecord
    meta := some { expenses := st.expenses, budgets := st.budgets } }

/-- The `for row in reader:` loop of `load_data_from_file` (source lines
136–145).  Rows with fewer than four fields are skipped by `continue`.  A
row with more than four fields makes the tuple unpacking raise
`ValueError`, and a four-field row whose third field `float(...)` rejects
makes that call raise `ValueError`; either exception escapes to the
`except` clause around the whole loop, so processing stops there.  The
Boolean result records whether the loop ran to completion (`true`) or was
aborted by an exception (`false`). -/
def processRows (st : Ledger) : List (List Cell) → Ledger × Bool
  | [] => (st, true)
  | row :: rest =>
    if row.length < 4 then
      processRows st rest
    else
      match row with
      | [d, c, a, desc] =>
        match a.asFloat with
        | none => (st, false)
        | some q =>
          let cat := c.asText
          processRows
            { st with
              expense_history :=
                st.expense_history ++ [⟨d.asText, cat, q, desc.asText⟩]
              expenses :=
                if st.expenses.contains cat then
                  st.expenses.set cat (st.expenses.getD cat 0 + q)
                else
                  st.expenses.set cat q }
            rest
      | _ => (st, false)

/-- `load_data_from_file` (source lines 124–154): a missing record file
(`file = none`) leaves the state untouched.  Otherwise the first row is
consumed as the header by `next(reader, None)` and the rest is processed
by the row loop; when the loop completes without an exception and the
metadata file exists, `expenses.update(meta["expenses"])` and
`budgets.update(meta["budgets"])` overwrite the recomputed entries with
the stored ones.  When the loop aborts, the `except` clause is reached
and the metadata step never runs. -/
def load_data_from_file (st : Ledger) (file : Option SavedData) : Ledger :=
  match file with
  | none => st
  | some data =>
    match processRows st data.rows.tail with
    | (st₁, true) =>
      match data.meta with
      | none => st₁
      | some m =>
        { st₁ with
          expenses := st₁.expenses.update m.expenses
          budgets := st₁.budgets.update m.budgets }
    | (st₁, false) => st₁

/-- A well-formed state, as Python maintains it: dict keys are unique, and
every history record's category is a key of `expenses` (`add_expense`
refuses unknown categories and the load loop inserts the key itself). -/
def Ledger.WF (st : Ledger) : Prop :=
  (st.expenses.map Prod.fst).Nodup ∧
  ∀ r ∈ st.expense_history, st.expenses.contains r.category = true

namespace Dict

theorem update_nil (d : Dict α) : update d [] = d := rfl

theorem update_cons (d : Dict α) (p : String × α) (rest : Dict α) :
    update d (p :: rest) = update (set d p.1 p.2) rest := rfl

theorem getD_set_self (d : Dict α) (k : String) (v : α) (v₀ : α) :
    getD (set d k v) k v₀ = v := by
  induction d with
  | nil => simp [set, getD]
  | cons p rest ih =>
    by_cases h : p.1 = k
    · simp [set, getD, h]
    · simp [set, getD, h, ih]

theorem getD_set_ne (d : Dict α) {k k' : String} (h : k ≠ k') (v : α)
    (v₀ : α) : getD (set d k v) k' v₀ = getD d k' v₀ := by
  induction d with
  | nil => simp only [set, getD, beq_iff_eq, if_neg h]
  | cons p rest ih =>
    by_cases hp : p.1 = k
    · have hs : set (p :: rest) k v = (k, v) :: rest := by simp [set, hp]
      rw [hs]
      simp only [getD, beq_iff_eq, if_neg h, if_neg (hp ▸ h : ¬ p.1 = k')]
    · have hs : set (p :: rest) k v = p :: set rest k v := by simp [set, hp]
      rw [hs]
      simp only [getD, beq_iff_eq]
      by_cases hp' : p.1 = k'
      · rw [if_pos hp', if_pos hp']
      · rw [if_neg hp', if_neg hp', ih]

theorem getD_eq_default_of_not_contains {d : Dict α} {k : String}
    (h : contains d k = false) (v₀ : α) : getD d k v₀ = v₀ := by
  induction d with
  | nil => rfl
  | cons p rest ih =>
    simp only [contains, List.any_cons, Bool.or_eq_false_iff] at h
    have hp : p.1 ≠ k := by
      intro hc
      rw [hc] at h
      simp at h
    simp only [getD, beq_iff_eq, if_neg hp]
    exact ih (by simpa [contains] using h.2)

theorem mem_of_contains {d : Dict α} {k : String} (h : contains d k = true)
    (v₀ : α) : (k, getD d k v₀) ∈ d := by
  induction d with
  | nil => simp [contains] at h
  | cons p rest ih =>
    obtain ⟨k₁, v₁⟩ := p
    by_cases hp : k₁ = k
    · subst hp
      simp [getD]
    · have h' : contains rest k = true := by
        simp only [contains, List.any_cons, Bool.or_eq_true] at h
        rcases h with h | h
        · exact absurd (beq_iff_eq.mp h) hp
        · exact h
      simp only [getD, beq_iff_eq, if_neg hp]
      exact List.mem_cons_of_mem _ (ih h')

theorem getD_eq_of_mem_nodup {d : Dict α} (hnd : (List.map Prod.fst d).Nodup)
    {k : String} {v : α} (hmem : (k, v) ∈ d) (v₀ : α) : getD d k v₀ = v := by
  induction d with
  | nil => simp at hmem
  | cons p rest ih =>
    obtain ⟨k₁, v₁⟩ := p
    simp only [List.map_cons, List.nodup_cons] at hnd
    rcases List.mem_cons.mp hmem with h | h
    · rw [Prod.mk.injEq] at h
      simp [getD, h.1, h.2]
    · have hk : k₁ ≠ k := by
        intro hk
        exact hnd.1 (hk ▸ List.mem_map.mpr ⟨(k, v), h, rfl⟩)
      simp only [getD, beq_iff_eq, if_neg hk]
      exact ih hnd.2 h

theorem contains_of_mem {d : Dict α} {k : String} {v : α}
    (h : (k, v) ∈ d) : contains d k = true := by
  induction d with
  | nil => simp at h
  | cons p rest ih =>
    rcases List.mem_cons.mp h with h | h
    · simp [contains, ← h]
    · simp only [contains, List.any_cons, Bool.or_eq_true]
      exact Or.inr (ih h)

theorem sum_set_getD_add {d : Dict ℚ} {k : String}
    (h : contains d k = true) (a : ℚ) :
    (List.map Prod.snd (set d k (getD d k 0 + a))).sum =
      (List.map Prod.snd d).sum + a := by
  induction d with
  | nil => simp [contains] at h
  | cons p rest ih =>
    obtain ⟨k₁, v₁⟩ := p
    by_cases hp : k₁ = k
    · subst hp
      simp [set, getD]
      ring
    · have h' : contains rest k = true := by
        simp only [contains, List.any_cons, Bool.or_eq_true] at h
        rcases h with h | h
        · exact absurd (beq_iff_eq.mp h) hp
        · exact h
      simp only [set, getD, beq_iff_eq, if_neg hp, List.map_cons, List.sum_cons]
      rw [ih h']
      ring

theorem getD_update_not_contains (d : Dict α) {m : Dict α} {k : String}
    (h : contains m k = false) (v₀ : α) :
    getD (update d m) k v₀ = getD d k v₀ := by
  induction m generalizing d with
  | nil => rfl
  | cons p rest ih =>
    simp only [contains, List.any_cons, Bool.or_eq_false_iff] at h
    have hp : p.1 ≠ k := by
      intro hc
      rw [hc] at h
      simp at h
    rw [update_cons, ih (set d p.1 p.2) (by simpa [contains] using h.2),
      getD_set_ne d hp]

theorem getD_update_contains (d : Dict α) {m : Dict α}
    (hnd : (List.map Prod.fst m).Nodup) {k : String}
    (h : contains m k = true) (v₀ : α) :
    getD (update d m) k v₀ = getD m k v₀ := by
  induction m generalizing d with
  | nil => simp [contains] at h
  | cons p rest ih =>
    obtain ⟨k₁, v₁⟩ := p
    simp only [List.map_cons, List.nodup_cons] at hnd
    by_cases hp : k₁ = k
    · subst hp
      have hrest : contains rest k₁ = false := by
        by_contra hc
        rw [Bool.not_eq_false] at hc
        exact hnd.1 (List.mem_map.mpr ⟨(k₁, getD rest k₁ v₁), mem_of_contains hc v₁, rfl⟩)
      rw [update_cons, getD_update_not_contains _ hrest]
      simp [getD_set_self, getD]
    · have h' : contains rest k = true := by
        simp only [contains, List.any_cons, Bool.or_eq_true] at h
        rcases h with h | h
        · exact absurd (beq_iff_eq.mp h) hp
        · exact h
      rw [update_cons]
      rw [show set d (k₁, v₁).1 (k₁, v₁).2 = set d k₁ v₁ from rfl]
      rw [ih (set d k₁ v₁) hnd.2 h']
      simp [getD, beq_iff_eq, if_neg hp]

theorem getD_map_const_zero (l : List String) (k : String) :
    getD (List.map (fun c => (c, (0 : ℚ))) l) k 0 = 0 := by
  induction l with
  | nil => rfl
  | cons c rest ih =>
    by_cases h : c = k
    · simp [getD, h]
    · simp [getD, h, ih]

theorem getD_map_zero_pairs (d : Dict ℚ) (k : String) :
    getD (List.map (fun p => (p.1, (0 : ℚ))) d) k 0 = 0 := by
  induction d with
  | nil => rfl
  | cons p rest ih =>
    by_cases h : p.1 = k
    · simp [getD, h]
    · simp [getD, h, ih]

end Dict

theorem sum_snd_map_zero (d : Dict ℚ) :
    (List.map Prod.snd (List.map (fun p => (p.1, (0 : ℚ))) d)).sum = 0 := by
  induction d with
  | nil => rfl
  | cons p rest ih =>
    simp only [List.map_cons, List.sum_cons, zero_add]
    exact ih

/-- C7: `remove_all_expenses` zeroes every category total and clears the
history — so the grand total becomes `0` and the history empty, whatever
the prior state — while the budgets mapping is left unchanged. -/
theorem remove_all_expenses_spec (st : Ledger) :
    calculate_total_expenses (remove_all_expenses st) = 0 ∧
    (remove_all_expenses st).expense_history = [] ∧
    (remove_all_expenses st).budgets = st.budgets ∧
    ∀ c, Dict.getD (remove_all_expenses st).expenses c 0 = 0 := by
  refine ⟨?_, rfl, rfl, fun c => Dict.getD_map_zero_pairs st.expenses c⟩
  exact sum_snd_map_zero st.expenses

/-- C3: with a known category and a positive amount, `add_expense`
succeeds, raises the grand total by exactly the amount, raises that
category's total by exactly the amount, and appends exactly one record,
stamped with the current date (the `today` input). -/
theorem add_expense_success (st : Ledger) (today category description : String)
    (a : ℚ) (hc : Dict.contains st.expenses category = true) (ha : 0 < a) :
    (add_expense st today category (some a) description).1 = .ok ∧
    calculate_total_expenses (add_expense st today category (some a) description).2
      = calculate_total_expenses st + a ∧
    Dict.getD (add_expense st today category (some a) description).2.expenses category 0
      = Dict.getD st.expenses category 0 + a ∧
    (add_expense st today category (some a) description).2.expense_history
      = st.expense_history ++ [⟨today, category, a, description⟩] := by
  have hneg : ¬ a ≤ 0 := not_le.mpr ha
  have h1 : add_expense st today category (some a) description =
      (.ok,
        { st with
          expense_history :=
            st.expense_history ++ [⟨today, category, a, description⟩]
          expenses :=
            Dict.set st.expenses category (Dict.getD st.expenses category 0 + a) }) := by
    simp [add_expense, hc, hneg]
  rw [h1]
  refine ⟨rfl, ?_, ?_, rfl⟩
  · exact Dict.sum_set_getD_add hc a
  · exact Dict.getD_set_self st.expenses category _ 0

/-- Witness for C3 at a concrete input. -/
theorem add_expense_success_witness :
    (Dict.contains initLedger.expenses "Food" = true ∧ (0 : ℚ) < 10) ∧
    ((add_expense initLedger "2024-05-01" "Food" (some 10) "lunch").1 = .ok ∧
     calculate_total_expenses (add_expense initLedger "2024-05-01" "Food" (some 10) "lunch").2
       = calculate_total_expenses initLedger + 10 ∧
     Dict.getD (add_expense initLedger "2024-05-01" "Food" (some 10) "lunch").2.expenses "Food" 0
       = Dict.getD initLedger.expenses "Food" 0 + 10 ∧
     (add_expense initLedger "2024-05-01" "Food" (some 10) "lunch").2.expense_history
       = [⟨"2024-05-01", "Food", 10, "lunch"⟩]) := by
  have h := add_expense_success initLedger "2024-05-01" "Food" "lunch" 10 (by decide) (by decide)
  exact ⟨⟨by decide, by decide⟩, h.1, h.2.1, h.2.2.1, by rw [h.2.2.2]; rfl⟩

/-- C4: `add_expense` is atomic on failure — a non-numeric or non-positive
amount (with a known category) reports an invalid amount, an unknown
category reports an invalid category, and in both cases the state is
returned unchanged. -/
theorem add_expense_failure_atomic (st : Ledger)
    (today category description : String) (amount : Option ℚ) :
    (Dict.contains st.expenses category = true →
      (amount = none ∨ ∃ q, amount = some q ∧ q ≤ 0) →
      (add_expense st today category amount description).1.isInvalidAmount = true ∧
      (add_expense st today category amount description).2 = st) ∧
    (Dict.contains st.expenses category = false →
      (add_expense st today category amount description).1 = .invalidCategory ∧
      (add_expense st today category amount description).2 = st) := by
  constructor
  · intro hc hbad
    rcases hbad with h | ⟨q, hq, hle⟩
    · subst h
      simp [add_expense, hc, AddResult.isInvalidAmount]
    · subst hq
      simp [add_expense, hc, hle, AddResult.isInvalidAmount]
  · intro hc
    simp [add_expense, hc]

/-- Witness for C4 at concrete inputs (amount `-3`; category "Candy"). -/
theorem add_expense_failure_atomic_witness :
    ((add_expense initLedger "2024-05-01" "Food" (some (-3)) "").1.isInvalidAmount = true ∧
     (add_expense initLedger "2024-05-01" "Food" (some (-3)) "").2 = initLedger) ∧
    ((add_expense initLedger "2024-05-01" "Candy" (some 5) "").1 = .invalidCategory ∧
     (add_expense initLedger "2024-05-01" "Candy" (some 5) "").2 = initLedger) :=
  ⟨(add_expense_failure_atomic initLedger "2024-05-01" "Food" "" (some (-3))).1
      (by decide) (Or.inr ⟨-3, rfl, by norm_num⟩),
   (add_expense_failure_atomic initLedger "2024-05-01" "Candy" "" (some 5)).2
      (by decide)⟩

/-- C10: both `add_expense` and `set_budget` test the category before the
amount, so an unknown category together with an invalid amount is reported
as an invalid category, never as an invalid amount, with the state
unchanged. -/
theorem category_checked_before_amount (st : Ledger)
    (today category description : String) (amount : Option ℚ)
    (hbad : amount = none ∨ ∃ q, amount = some q ∧ q ≤ 0)
    (hce : Dict.contains st.expenses category = false)
    (hcb : Dict.contains st.budgets category = false) :
    add_expense st today category amount description = (.invalidCategory, st) ∧
    set_budget st category amount = (.invalidCategory, st) :=
  ⟨by simp [add_expense, hce], by simp [set_budget, hcb]⟩

/-- Witness for C10 at a concrete input ("Candy", non-numeric amount). -/
theorem category_checked_before_amount_witness :
    add_expense initLedger "2024-05-01" "Candy" none "" = (.invalidCategory, initLedger) ∧
    set_budget initLedger "Candy" none = (.invalidCategory, initLedger) :=
  category_checked_before_amount initLedger "2024-05-01" "Candy" "" none
    (Or.inl rfl) (by decide) (by decide)

theorem le_foldl_max (xs : List ℚ) (a : ℚ) : a ≤ xs.foldl max a := by
  induction xs generalizing a with
  | nil => exact le_refl a
  | cons x rest ih => exact le_trans (le_max_left a x) (ih (max a x))

theorem mem_le_foldl_max {xs : List ℚ} {v : ℚ} (h : v ∈ xs) (a : ℚ) :
    v ≤ xs.foldl max a := by
  induction xs generalizing a with
  | nil => simp at h
  | cons x rest ih =>
    rcases List.mem_cons.mp h with h | h
    · rw [h, List.foldl_cons]
      exact le_trans (le_max_right a x) (le_foldl_max rest (max a x))
    · rw [List.foldl_cons]
      exact ih h (max a x)

theorem foldl_max_mem (xs : List ℚ) (a : ℚ) :
    xs.foldl max a = a ∨ xs.foldl max a ∈ xs := by
  induction xs generalizing a with
  | nil => exact Or.inl rfl
  | cons x rest ih =>
    rcases ih (max a x) with h | h
    · rcases max_choice a x with hm | hm
      · exact Or.inl (by rw [List.foldl_cons, h, hm])
      · refine Or.inr ?_
        rw [List.foldl_cons, h, hm]
        exact List.mem_cons_self x rest
    · exact Or.inr (List.mem_cons_of_mem x h)

theorem pymax_ge {xs : List ℚ} {v : ℚ} (h : v ∈ xs) : v ≤ pymax xs := by
  match xs with
  | x :: rest =>
    rcases List.mem_cons.mp h with h | h
    · exact h ▸ le_foldl_max rest x
    · exact mem_le_foldl_max h x

theorem pymax_mem {xs : List ℚ} (hne : xs ≠ []) : pymax xs ∈ xs := by
  match xs with
  | x :: rest =>
    rcases foldl_max_mem rest x with h | h
    · rw [show pymax (x :: rest) = rest.foldl max x from rfl, h]
      exact List.mem_cons_self x rest
    · exact List.mem_cons_of_mem x h

theorem mem_filter_max_iff {d : Dict ℚ} (hnd : (List.map Prod.fst d).Nodup)
    (m : ℚ) (c : String) :
    c ∈ List.map Prod.fst (List.filter (fun p => p.2 == m) d) ↔
      Dict.contains d c = true ∧ Dict.getD d c 0 = m := by
  constructor
  · intro h
    obtain ⟨⟨p₁, p₂⟩, hpf, hpc⟩ := List.mem_map.mp h
    obtain ⟨hpd, hpm⟩ := List.mem_filter.mp hpf
    have hval : p₂ = m := by simpa using hpm
    subst hpc
    exact ⟨Dict.contains_of_mem hpd,
      (Dict.getD_eq_of_mem_nodup hnd hpd 0).trans hval⟩
  · rintro ⟨hcont, hval⟩
    have hpair : (c, Dict.getD d c 0) ∈ d := Dict.mem_of_contains hcont 0
    refine List.mem_map.mpr ⟨(c, Dict.getD d c 0), List.mem_filter.mpr ⟨hpair, ?_⟩, rfl⟩
    simpa using hval

/-- C8: `find_highest_spending_category` computes the maximum category
total; when it is zero it signals "nothing to analyze" (`(None, 0.0)`),
otherwise it returns that maximum together with exactly the set of
categories whose total equals it — ties kept as a list. -/
theorem find_highest_spending_category_spec (st : Ledger)
    (hne : st.expenses ≠ []) (hnd : (List.map Prod.fst st.expenses).Nodup) :
    (∀ p ∈ st.expenses, p.2 ≤ pymax (List.map Prod.snd st.expenses)) ∧
    pymax (List.map Prod.snd st.expenses) ∈ List.map Prod.snd st.expenses ∧
    (pymax (List.map Prod.snd st.expenses) = 0 →
      find_highest_spending_category st = (none, 0)) ∧
    (pymax (List.map Prod.snd st.expenses) ≠ 0 →
      (find_highest_spending_category st).2 = pymax (List.map Prod.snd st.expenses) ∧
      ∃ cats, (find_highest_spending_category st).1 = some cats ∧
        ∀ c, c ∈ cats ↔ Dict.contains st.expenses c = true ∧
          Dict.getD st.expenses c 0 = pymax (List.map Prod.snd st.expenses)) := by
  have hne' : List.map Prod.snd st.expenses ≠ [] := by
    simpa using hne
  refine ⟨?_, pymax_mem hne', ?_, ?_⟩
  · intro p hp
    exact pymax_ge (List.mem_map_of_mem Prod.snd hp)
  · intro h0
    simp [find_highest_spending_category, h0]
  · intro h0
    refine ⟨by simp [find_highest_spending_category, h0], ?_⟩
    refine ⟨List.map Prod.fst (List.filter (fun p => p.2 == pymax (List.map Prod.snd st.expenses)) st.expenses),
      by simp [find_highest_spending_category, h0], ?_⟩
    intro c
    exact mem_filter_max_iff hnd (pymax (List.map Prod.snd st.expenses)) c

/-- A concrete ledger realizing the spec's tie example. -/
def tiedLedger : Ledger :=
  { expenses := [("Food", 50), ("Transportation", 50), ("Entertainment", 10),
                 ("Utilities", 0), ("Health", 0), ("Shopping", 0),
                 ("Education", 0), ("Other", 0)]
    expense_history := []
    budgets := DEFAULT_CATEGORIES.map fun c => (c, (none : Option ℚ)) }

/-- Witness for C8: the spec's own example — totals Food 50,
Transportation 50, Entertainment 10 yield exactly the tied pair at 50. -/
theorem find_highest_spending_category_witness :
    (tiedLedger.expenses ≠ [] ∧ (List.map Prod.fst tiedLedger.expenses).Nodup) ∧
    ((∀ p ∈ tiedLedger.expenses, p.2 ≤ pymax (List.map Prod.snd tiedLedger.expenses)) ∧
     pymax (List.map Prod.snd tiedLedger.expenses) ∈ List.map Prod.snd tiedLedger.expenses ∧
     (pymax (List.map Prod.snd tiedLedger.expenses) = 0 →
       find_highest_spending_category tiedLedger = (none, 0)) ∧
     (pymax (List.map Prod.snd tiedLedger.expenses) ≠ 0 →
       (find_highest_spending_category tiedLedger).2 = pymax (List.map Prod.snd tiedLedger.expenses) ∧
       ∃ cats, (find_highest_spending_category tiedLedger).1 = some cats ∧
         ∀ c, c ∈ cats ↔ Dict.contains tiedLedger.expenses c = true ∧
           Dict.getD tiedLedger.expenses c 0 = pymax (List.map Prod.snd tiedLedger.expenses))) ∧
    find_highest_spending_category tiedLedger = (some ["Food", "Transportation"], 50) := by
  refine ⟨⟨by decide, by decide⟩, ?_, by decide⟩
  exact find_highest_spending_category_spec tiedLedger (by decide) (by decide)

/-- The history filter as the spec describes it: category equality with
the supplied filter, date at least the supplied start date and at most the
supplied end date (both bounds inclusive), absent filters always passing.
Spec-side definition, to be compared with the code's `keepRecord`. -/
def matchesFilters (filter_category start_date end_date : Option String)
    (r : Record) : Bool :=
  (match filter_category with
   | none => true
   | some c => r.category == c) &&
  ((match start_date with
    | none => true
    | some s => decide (s ≤ r.date)) &&
   (match end_date with
    | none => true
    | some e => decide (r.date ≤ e)))

theorem keepRecord_eq_matchesFilters {fc sd ed : Option String} (r : Record)
    (hfc : fc ≠ some "") (hsd : sd ≠ some "") (hed : ed ≠ some "") :
    keepRecord fc sd ed r = matchesFilters fc sd ed r := by
  have hchain : ∀ (a b c : Bool),
      (if a then false else if b then false else if c then false else true)
        = (!a && (!b && !c)) := by decide
  have hcat : ∀ c : String, c ≠ "" →
      (!(truthy (some c) && r.category != Option.getD (some c) ""))
        = (r.category == c) := by
    intro c hc
    have hc' : (c != "") = true := by simpa using hc
    show (!((c != "") && r.category != c)) = (r.category == c)
    rw [hc', Bool.true_and]
    simp [bne]
  have hstart : ∀ s : String, s ≠ "" →
      (!(truthy (some s) && decide (r.date < Option.getD (some s) "")))
        = decide (s ≤ r.date) := by
    intro s hs
    have hs' : (s != "") = true := by simpa using hs
    show (!((s != "") && decide (r.date < s))) = decide (s ≤ r.date)
    rw [hs', Bool.true_and]
    by_cases h : r.date < s
    · simp [h, not_le.mpr h]
    · simp [h, not_lt.mp h]
  have hend : ∀ e : String, e ≠ "" →
      (!(truthy (some e) && decide (Option.getD (some e) "" < r.date)))
        = decide (r.date ≤ e) := by
    intro e he
    have he' : (e != "") = true := by simpa using he
    show (!((e != "") && decide (e < r.date))) = decide (r.date ≤ e)
    rw [he', Bool.true_and]
    by_cases h : e < r.date
    · simp [h, not_le.mpr h]
    · simp [h, not_lt.mp h]
  rw [keepRecord, hchain]
  rcases fc with _ | c <;> rcases sd with _ | s <;> rcases ed with _ | e
  · simp [truthy, matchesFilters]
  · rw [hend e (fun h => hed (congrArg some h))]
    simp [truthy, matchesFilters]
  · rw [hstart s (fun h => hsd (congrArg some h))]
    simp [truthy, matchesFilters]
  · rw [hstart s (fun h => hsd (congrArg some h)),
        hend e (fun h => hed (congrArg some h))]
    simp [truthy, matchesFilters]
  · rw [hcat c (fun h => hfc (congrArg some h))]
    simp [truthy, matchesFilters]
  · rw [hcat c (fun h => hfc (congrArg some h)),
        hend e (fun h => hed (congrArg some h))]
    simp [truthy, matchesFilters]
  · rw [hcat c (fun h => hfc (congrArg some h)),
        hstart s (fun h => hsd (congrArg some h))]
    simp [truthy, matchesFilters]
  · rw [hcat c (fun h => hfc (congrArg some h)),
        hstart s (fun h => hsd (congrArg some h)),
        hend e (fun h => hed (congrArg some h))]
    simp [matchesFilters]

/-- C9: `view_expense_history` returns exactly the history records that
pass every supplied filter — category equality, date at least the start
date, date at most the end date, both bounds inclusive — in their original
order; when nothing matches the result is simply the empty list.  The
supplied string filters are actual values (non-empty strings), matching
their domains (category names and `YYYY-MM-DD` dates). -/
theorem view_expense_history_filter_spec (st : Ledger)
    {fc sd ed : Option String}
    (hfc : fc ≠ some "") (hsd : sd ≠ some "") (hed : ed ≠ some "") :
    view_expense_history st fc sd ed
      = List.filter (matchesFilters fc sd ed) st.expense_history := by
  unfold view_expense_history
  congr 1
  funext r
  exact keepRecord_eq_matchesFilters r hfc hsd hed

/-- A ledger holding the spec's two-record filtering example. -/
def twoRecordLedger : Ledger :=
  { initLedger with
    expense_history := [⟨"2024-01-01", "Food", 10, "a"⟩,
                        ⟨"2024-01-02", "Transportation", 5, "b"⟩] }

/-- Witness for C9: filtering the two-record example by category "Food"
returns exactly the first record. -/
theorem view_expense_history_filter_witness :
    ((some "Food" : Option String) ≠ some "" ∧
     (none : Option String) ≠ some "") ∧
    view_expense_history twoRecordLedger (some "Food") none none
      = List.filter (matchesFilters (some "Food") none none)
          twoRecordLedger.expense_history ∧
    view_expense_history twoRecordLedger (some "Food") none none
      = [⟨"2024-01-01", "Food", 10, "a"⟩] := by
  refine ⟨⟨by decide, by decide⟩, ?_, by decide⟩
  exact view_expense_history_filter_spec twoRecordLedger
    (by decide) (by decide) (by decide)

/-- The `add_expense` success case as a state equation (known category,
positive amount). -/
theorem add_expense_ok_eq (st : Ledger) (t c d : String) {q : ℚ}
    (hc : Dict.contains st.expenses c = true) (hq : ¬ q ≤ 0) :
    add_expense st t c (some q) d =
      (.ok,
        { st with
          expense_history := st.expense_history ++ [⟨t, c, q, d⟩]
          expenses := Dict.set st.expenses c (Dict.getD st.expenses c 0 + q) }) := by
  simp [add_expense, hc, hq]

/-- `set_budget` only ever touches `budgets`. -/
theorem set_budget_frame (st : Ledger) (c : String) (a : Option ℚ) :
    (set_budget st c a).2.expenses = st.expenses ∧
    (set_budget st c a).2.expense_history = st.expense_history := by
  rcases a with _ | q
  · by_cases hb : Dict.contains st.budgets c = true
    · simp [set_budget, hb]
    · have hb' : Dict.contains st.budgets c = false := by simpa using hb
      simp [set_budget, hb']
  · by_cases hb : Dict.contains st.budgets c = true
    · by_cases hq : q ≤ 0
      · simp [set_budget, hb, hq]
      · simp [set_budget, hb, hq]
    · have hb' : Dict.contains st.budgets c = false := by simpa using hb
      simp [set_budget, hb']

/-- One user-level mutating operation of the Ledger (C6's vocabulary):
an `add_expense` call, a `set_budget` call, or `remove_all_expenses`. -/
inductive Op where
  | add (today category : String) (amount : Option ℚ) (description : String)
  | setB (category : String) (amount : Option ℚ)
  | reset

/-- Run one operation against the module state. -/
def applyOp (st : Ledger) : Op → Ledger
  | .add t c a d => (add_expense st t c a d).2
  | .setB c a => (set_budget st c a).2
  | .reset => remove_all_expenses st

/-- Run a sequence of operations from a starting state. -/
def runOps (st : Ledger) (ops : List Op) : Ledger :=
  ops.foldl applyOp st

/-- The total recomputed from the history for one category: the sum of
the amounts of that category's records. -/
def categoryTotal (hist : List Record) (c : String) : ℚ :=
  ((hist.filter fun r => r.category == c).map Record.amount).sum

/-- The invariant carried through C6's induction: every category total
agrees with the history, and every stored amount is positive. -/
def SyncState (st : Ledger) : Prop :=
  (∀ c, Dict.getD st.expenses c 0 = categoryTotal st.expense_history c) ∧
  ∀ r ∈ st.expense_history, 0 < r.amount

theorem categoryTotal_append (h₁ h₂ : List Record) (c : String) :
    categoryTotal (h₁ ++ h₂) c = categoryTotal h₁ c + categoryTotal h₂ c := by
  simp [categoryTotal]

theorem syncState_applyOp {st : Ledger} (h : SyncState st) (op : Op) :
    SyncState (applyOp st op) := by
  rcases op with ⟨t, c, a, d⟩ | ⟨c, a⟩ | _
  · show SyncState (add_expense st t c a d).2
    by_cases hc : Dict.contains st.expenses c = true
    · rcases a with _ | q
      · simpa [add_expense, hc] using h
      · by_cases hq : q ≤ 0
        · simpa [add_expense, hc, hq] using h
        · rw [add_expense_ok_eq st t c d hc hq]
          constructor
          · intro c'
            show Dict.getD (Dict.set st.expenses c (Dict.getD st.expenses c 0 + q)) c' 0
              = categoryTotal (st.expense_history ++ [⟨t, c, q, d⟩]) c'
            rw [categoryTotal_append]
            by_cases hcc : c = c'
            · subst hcc
              rw [Dict.getD_set_self, h.1 c]
              simp [categoryTotal]
            · rw [Dict.getD_set_ne st.expenses hcc, h.1 c']
              simp [categoryTotal, hcc]
          · intro r hr
            rcases List.mem_append.mp hr with hr | hr
            · exact h.2 r hr
            · simp only [List.mem_singleton] at hr
              subst hr
              exact not_le.mp hq
    · have hc' : Dict.contains st.expenses c = false := by simpa using hc
      simpa [add_expense, hc'] using h
  · show SyncState (set_budget st c a).2
    obtain ⟨he, hh⟩ := set_budget_frame st c a
    exact ⟨fun c' => by rw [he, hh]; exact h.1 c', by rw [hh]; exact h.2⟩
  · show SyncState (remove_all_expenses st)
    constructor
    · intro c'
      show Dict.getD (List.map (fun p => (p.1, (0 : ℚ))) st.expenses) c' 0
        = categoryTotal [] c'
      rw [Dict.getD_map_zero_pairs]
      rfl
    · intro r hr
      simp [remove_all_expenses] at hr

theorem syncState_runOps {st : Ledger} (h : SyncState st) (ops : List Op) :
    SyncState (runOps st ops) := by
  induction ops generalizing st with
  | nil => exact h
  | cons op rest ih => exact ih (syncState_applyOp h op)

theorem syncState_init : SyncState initLedger := by
  constructor
  · intro c
    show Dict.getD (DEFAULT_CATEGORIES.map fun c => (c, (0 : ℚ))) c 0
      = categoryTotal [] c
    rw [Dict.getD_map_const_zero]
    rfl
  · intro r hr
    simp [initLedger] at hr

theorem categoryTotal_nonneg {hist : List Record}
    (hpos : ∀ r ∈ hist, 0 < r.amount) (c : String) :
    0 ≤ categoryTotal hist c := by
  refine List.sum_nonneg ?_
  intro x hx
  obtain ⟨r, hrf, hrx⟩ := List.mem_map.mp hx
  exact hrx ▸ le_of_lt (hpos r (List.mem_of_mem_filter hrf))

/-- C6: starting from the empty state, after any sequence of
`add_expense`, `set_budget` and `remove_all_expenses` calls (no load),
every category's stored total equals the sum of that category's history
amounts, and every total is non-negative. -/
theorem totals_sync_invariant (ops : List Op) :
    (∀ c, Dict.getD (runOps initLedger ops).expenses c 0
        = categoryTotal (runOps initLedger ops).expense_history c) ∧
    ∀ c, 0 ≤ Dict.getD (runOps initLedger ops).expenses c 0 := by
  have h := syncState_runOps syncState_init ops
  exact ⟨h.1, fun c => (h.1 c) ▸ categoryTotal_nonneg h.2 c⟩

/-- The per-record totals assignment of the load loop (source lines
142–145): `expenses[cat] += amt` when the key exists, `expenses[cat] = amt`
otherwise. -/
def recordStep (e : Dict ℚ) (r : Record) : Dict ℚ :=
  if Dict.contains e r.category then
    Dict.set e r.category (Dict.getD e r.category 0 + r.amount)
  else
    Dict.set e r.category r.amount

theorem processRows_cons_record (st : Ledger) (r : Record)
    (rest : List (List Cell)) :
    processRows st (rowOfRecord r :: rest) =
      processRows
        { st with
          expense_history := st.expense_history ++ [r]
          expenses := recordStep st.expenses r } rest := by
  simp [processRows, rowOfRecord, Cell.asFloat, Cell.asText, recordStep]

theorem processRows_map_rowOfRecord (st : Ledger) (hist : List Record) :
    processRows st (hist.map rowOfRecord) =
      ({ expenses := hist.foldl recordStep st.expenses
         expense_history := st.expense_history ++ hist
         budgets := st.budgets }, true) := by
  induction hist generalizing st with
  | nil => simp [processRows]
  | cons r hist ih =>
    rw [List.map_cons, processRows_cons_record, ih]
    simp

theorem foldl_recordStep_getD_untouched (e : Dict ℚ) (hist : List Record)
    {c : String} (h : ∀ r ∈ hist, r.category ≠ c) :
    Dict.getD (hist.foldl recordStep e) c 0 = Dict.getD e c 0 := by
  induction hist generalizing e with
  | nil => rfl
  | cons r rest ih =>
    rw [List.foldl_cons, ih _ (fun r' hr' => h r' (List.mem_cons_of_mem r hr'))]
    unfold recordStep
    by_cases hc : Dict.contains e r.category = true
    · rw [if_pos hc, Dict.getD_set_ne e (h r (List.mem_cons_self r rest))]
    · rw [if_neg hc, Dict.getD_set_ne e (h r (List.mem_cons_self r rest))]

theorem load_some_none_eq (st : Ledger) (rows : List (List Cell))
    (st₁ : Ledger) (hrun : processRows st rows.tail = (st₁, true)) :
    load_data_from_file st (some ⟨rows, none⟩) = st₁ := by
  simp only [load_data_from_file, hrun]

theorem load_some_meta_eq (st : Ledger) (rows : List (List Cell))
    (meta : Meta) (st₁ : Ledger)
    (hrun : processRows st rows.tail = (st₁, true)) :
    load_data_from_file st (some ⟨rows, some meta⟩) =
      { st₁ with
        expenses := Dict.update st₁.expenses meta.expenses
        budgets := Dict.update st₁.budgets meta.budgets } := by
  simp only [load_data_from_file, hrun]

/-- C1: saving a ledger (record file plus metadata file) and loading into
the fresh initial state reproduces the history exactly (hence as a set)
and gives every category the same total as before.  Well-formedness (keys
unique, record categories known) is what Python's dicts and `add_expense`
maintain. -/
theorem save_load_round_trip (st : Ledger) (hwf : st.WF)
    (hne : st.expense_history ≠ []) :
    (load_data_from_file initLedger (some (save_data_to_file st))).expense_history
      = st.expense_history ∧
    ∀ c, Dict.getD (load_data_from_file initLedger (some (save_data_to_file st))).expenses c 0
      = Dict.getD st.expenses c 0 := by
  obtain ⟨hnd, hcats⟩ := hwf
  have hrun : processRows initLedger (save_data_to_file st).rows.tail =
      ({ expenses := st.expense_history.foldl recordStep initLedger.expenses
         expense_history := st.expense_history
         budgets := initLedger.budgets }, true) := by
    rw [show (save_data_to_file st).rows.tail = st.expense_history.map rowOfRecord from rfl,
      processRows_map_rowOfRecord]
    rfl
  have hload := load_some_meta_eq initLedger (save_data_to_file st).rows
    ⟨st.expenses, st.budgets⟩ _ hrun
  rw [show (some (save_data_to_file st) : Option SavedData)
      = some ⟨(save_data_to_file st).rows, some ⟨st.expenses, st.budgets⟩⟩ from rfl,
    hload]
  refine ⟨rfl, fun c => ?_⟩
  by_cases hc : Dict.contains st.expenses c = true
  · exact Dict.getD_update_contains _ hnd hc 0
  · have hc' : Dict.contains st.expenses c = false := by simpa using hc
    rw [Dict.getD_update_not_contains _ hc' 0]
    have huntouched : ∀ r ∈ st.expense_history, r.category ≠ c := by
      intro r hr hrc
      have hmem := hcats r hr
      rw [hrc] at hmem
      simp [hc'] at hmem
    rw [foldl_recordStep_getD_untouched _ _ huntouched,
      Dict.getD_eq_default_of_not_contains hc' 0]
    exact Dict.getD_map_const_zero DEFAULT_CATEGORIES c

/-- A concrete non-empty well-formed ledger: one Food expense of 10. -/
def sampleLedger : Ledger :=
  { expenses := [("Food", 10), ("Transportation", 0), ("Entertainment", 0),
                 ("Utilities", 0), ("Health", 0), ("Shopping", 0),
                 ("Education", 0), ("Other", 0)]
    expense_history := [⟨"2024-01-01", "Food", 10, "x"⟩]
    budgets := DEFAULT_CATEGORIES.map fun c => (c, (none : Option ℚ)) }

/-- Witness for C1 at the concrete ledger `sampleLedger`. -/
theorem save_load_round_trip_witness :
    (sampleLedger.WF ∧ sampleLedger.expense_history ≠ []) ∧
    ((load_data_from_file initLedger (some (save_data_to_file sampleLedger))).expense_history
       = sampleLedger.expense_history ∧
     ∀ c, Dict.getD (load_data_from_file initLedger (some (save_data_to_file sampleLedger))).expenses c 0
       = Dict.getD sampleLedger.expenses c 0) := by
  refine ⟨⟨⟨by decide, by decide⟩, by decide⟩, ?_⟩
  exact save_load_round_trip sampleLedger ⟨by decide, by decide⟩ (by decide)

/-- Counterexample for C2: save a ledger with a Food total of 10 (one
record of amount 10) and load into the fresh state.  The claim predicts
the recomputed sum plus the stored snapshot, `10 + 10`; the code's
`expenses.update(meta["expenses"])` is a replacing assignment, so the
total is `10`. -/
theorem load_totals_not_double_counted :
    Dict.getD (load_data_from_file initLedger
        (some (save_data_to_file sampleLedger))).expenses "Food" 0 = 10 ∧
    Dict.getD (load_data_from_file initLedger
        (some (save_data_to_file sampleLedger))).expenses "Food" 0 ≠ 10 + 10 := by
  have h10 : Dict.getD (load_data_from_file initLedger
      (some (save_data_to_file sampleLedger))).expenses "Food" 0 = 10 := by decide
  refine ⟨h10, ?_⟩
  rw [h10]
  norm_num

/-- C2 amended: `load_data_from_file` recomputes totals from the raw rows
and then *overwrites* (dict update = replacing assignment) every category
present in the stored metadata with its stored total; categories absent
from the metadata keep the recomputed value.  After a save followed by a
load each stored category's total is therefore the snapshot value, not
snapshot plus recomputation. -/
theorem load_update_overwrites_totals (st₀ st₁ : Ledger)
    (rows : List (List Cell)) (m : Meta)
    (hnd : (List.map Prod.fst m.expenses).Nodup)
    (hrun : processRows st₀ rows.tail = (st₁, true)) :
    ∀ c, Dict.getD (load_data_from_file st₀ (some ⟨rows, some m⟩)).expenses c 0
      = if Dict.contains m.expenses c = true then Dict.getD m.expenses c 0
        else Dict.getD st₁.expenses c 0 := by
  intro c
  rw [load_some_meta_eq st₀ rows m st₁ hrun]
  by_cases hc : Dict.contains m.expenses c = true
  · rw [if_pos hc]
    exact Dict.getD_update_contains _ hnd hc 0
  · rw [if_neg hc]
    exact Dict.getD_update_not_contains _ (by simpa using hc) 0

/-- Witness for the amended C2 at a concrete input: a record file with
only the header row and a metadata file storing `{"Food": 7}`. -/
theorem load_update_overwrites_totals_witness :
    ((List.map Prod.fst ([("Food", (7 : ℚ))] : Dict ℚ)).Nodup ∧
     processRows initLedger (([headerRow] : List (List Cell)).tail)
       = (initLedger, true)) ∧
    ∀ c, Dict.getD (load_data_from_file initLedger
        (some ⟨[headerRow], some ⟨[("Food", 7)], []⟩⟩)).expenses c 0
      = if Dict.contains ([("Food", (7 : ℚ))] : Dict ℚ) c = true
        then Dict.getD ([("Food", (7 : ℚ))] : Dict ℚ) c 0
        else Dict.getD initLedger.expenses c 0 := by
  refine ⟨⟨by decide, rfl⟩, ?_⟩
  exact load_update_overwrites_totals initLedger initLedger [headerRow]
    ⟨[("Food", 7)], []⟩ (by decide) rfl

/-- A well-formed data row in the sense of C5: exactly four fields with a
parsable amount; `parseRow` returns the record such a row denotes.  Rows
with any other shape yield `none`. -/
def parseRow : List Cell → Option Record
  | [d, c, a, desc] =>
    match a.asFloat with
    | some q => some ⟨d.asText, c.asText, q, desc.asText⟩
    | none => none
  | _ => none

theorem parseRow_eq_none_of_short {row : List Cell} (h : row.length < 4) :
    parseRow row = none := by
  match row with
  | [] => rfl
  | [_] => rfl
  | [_, _] => rfl
  | [_, _, _] => rfl
  | _ :: _ :: _ :: _ :: _ =>
    simp only [List.length_cons] at h
    omega

theorem parseRow_some_inv {row : List Cell} {r : Record}
    (h : parseRow row = some r) :
    ∃ d c a desc q, row = [d, c, a, desc] ∧ Cell.asFloat a = some q ∧
      r = ⟨Cell.asText d, Cell.asText c, q, Cell.asText desc⟩ := by
  match row with
  | [] => simp [parseRow] at h
  | [_] => simp [parseRow] at h
  | [_, _] => simp [parseRow] at h
  | [_, _, _] => simp [parseRow] at h
  | [d, c, a, desc] =>
    rcases ha : Cell.asFloat a with _ | q
    · simp [parseRow, ha] at h
    · simp only [parseRow, ha, Option.some.injEq] at h
      exact ⟨d, c, a, desc, q, rfl, ha, h.symm⟩
  | _ :: _ :: _ :: _ :: _ :: _ => simp [parseRow] at h

theorem processRows_all_ok (st : Ledger) (rows : List (List Cell))
    (h : ∀ row ∈ rows, row.length < 4 ∨ ∃ r, parseRow row = some r) :
    (processRows st rows).2 = true ∧
    (processRows st rows).1.expense_history
      = st.expense_history ++ rows.filterMap parseRow := by
  induction rows generalizing st with
  | nil => exact ⟨rfl, by simp [processRows]⟩
  | cons row rest ih =>
    rcases h row (List.mem_cons_self _ _) with hshort | ⟨r, hr⟩
    · have hstep : processRows st (row :: rest) = processRows st rest := by
        match row, hshort with
        | [], _ => simp [processRows]
        | [_], _ => simp [processRows]
        | [_, _], _ => simp [processRows]
        | [_, _, _], _ => simp [processRows]
        | _ :: _ :: _ :: _ :: _, hshort =>
          simp only [List.length_cons] at hshort
          omega
      have ihr := ih st (fun row' h' => h row' (List.mem_cons_of_mem _ h'))
      rw [hstep, List.filterMap_cons, parseRow_eq_none_of_short hshort]
      exact ihr
    · obtain ⟨d, c, a, desc, q, hrow, ha, hrec⟩ := parseRow_some_inv hr
      subst hrow
      have hstep : processRows st ([d, c, a, desc] :: rest) =
          processRows
            { st with
              expense_history := st.expense_history
                ++ [⟨Cell.asText d, Cell.asText c, q, Cell.asText desc⟩]
              expenses :=
                if Dict.contains st.expenses (Cell.asText c) then
                  Dict.set st.expenses (Cell.asText c)
                    (Dict.getD st.expenses (Cell.asText c) 0 + q)
                else
                  Dict.set st.expenses (Cell.asText c) q } rest := by
        simp [processRows, ha]
      have ihr := ih
        { st with
          expense_history := st.expense_history
            ++ [⟨Cell.asText d, Cell.asText c, q, Cell.asText desc⟩]
          expenses :=
            if Dict.contains st.expenses (Cell.asText c) then
              Dict.set st.expenses (Cell.asText c)
                (Dict.getD st.expenses (Cell.asText c) 0 + q)
            else
              Dict.set st.expenses (Cell.asText c) q }
        (fun row' h' => h row' (List.mem_cons_of_mem _ h'))
      rw [hstep, List.filterMap_cons, hr]
      refine ⟨ihr.1, ?_⟩
      rw [ihr.2, hrec]
      simp

/-- C5 amended: during load, rows with fewer than four fields are skipped
individually; but a malformed row of any other kind — more than four
fields, or a non-parsable amount — raises inside the shared `try` block
and aborts the remainder of the load.  When every row is either short or
well-formed, the load completes and appends exactly the records of the
well-formed rows, in order. -/
theorem load_wellformed_rows_loaded (st : Ledger)
    (rows : List (List Cell)) (m : Option Meta)
    (h : ∀ row ∈ rows.tail, row.length < 4 ∨ ∃ r, parseRow row = some r) :
    (load_data_from_file st (some ⟨rows, m⟩)).expense_history
      = st.expense_history ++ rows.tail.filterMap parseRow := by
  obtain ⟨hok, hhist⟩ := processRows_all_ok st rows.tail h
  rcases hrun : processRows st rows.tail with ⟨st₁, ok⟩
  rw [hrun] at hok hhist
  simp only at hok hhist
  subst hok
  rcases m with _ | meta
  · rw [load_some_none_eq st rows st₁ hrun]
    exact hhist
  · rw [load_some_meta_eq st rows meta st₁ hrun]
    exact hhist

/-- Witness for the amended C5: a file with a header, a one-field row and
a well-formed row loads exactly the record of the well-formed row. -/
theorem load_wellformed_rows_loaded_witness :
    (∀ row ∈ ([headerRow, [Cell.str "oops"],
               [Cell.str "2024-01-02", Cell.str "Food", Cell.num 5, Cell.str "y"]]
        : List (List Cell)).tail,
      row.length < 4 ∨ ∃ r, parseRow row = some r) ∧
    (load_data_from_file initLedger (some
        { rows := [headerRow, [Cell.str "oops"],
                   [Cell.str "2024-01-02", Cell.str "Food", Cell.num 5, Cell.str "y"]]
          meta := none })).expense_history
      = initLedger.expense_history
        ++ ([headerRow, [Cell.str "oops"],
             [Cell.str "2024-01-02", Cell.str "Food", Cell.num 5, Cell.str "y"]]
            : List (List Cell)).tail.filterMap parseRow := by
  have hyp : ∀ row ∈ ([headerRow, [Cell.str "oops"],
               [Cell.str "2024-01-02", Cell.str "Food", Cell.num 5, Cell.str "y"]]
        : List (List Cell)).tail,
      row.length < 4 ∨ ∃ r, parseRow row = some r := by
    intro row hrow
    rcases List.mem_cons.mp hrow with h | h
    · left
      rw [h]
      decide
    · right
      refine ⟨⟨"2024-01-02", "Food", 5, "y"⟩, ?_⟩
      have : row = [Cell.str "2024-01-02", Cell.str "Food", Cell.num 5, Cell.str "y"] := by
        simpa using h
      rw [this]
      decide
  exact ⟨hyp, load_wellformed_rows_loaded initLedger _ none hyp⟩

/-- Counterexample for C5: a four-field row with a non-numeric amount
("abc") makes `float(...)` raise inside the load's `try`, so the following
well-formed row — which `parseRow` accepts — is never loaded: the
resulting history is empty. -/
theorem load_aborts_on_bad_amount_row :
    parseRow [Cell.str "2024-01-02", Cell.str "Food", Cell.num 5, Cell.str "y"]
      = some ⟨"2024-01-02", "Food", 5, "y"⟩ ∧
    (load_data_from_file initLedger (some
        { rows := [headerRow,
                   [Cell.str "2024-01-01", Cell.str "Food", Cell.str "abc", Cell.str "x"],
                   [Cell.str "2024-01-02", Cell.str "Food", Cell.num 5, Cell.str "y"]]
          meta := none })).expense_history = [] := by
  exact ⟨by decide, by decide⟩
